import Mathlib

/-!
Verification development for the GuardIA git-truck-api tree-transformation
core (the module holding `updateAuthorValues`, `updateLastChangeDate`,
`updateCommits`, `addMetrics`, `addSingleAuthor`, `addTopContributor`,
`getMinCommits`, `getMaxCommits`, `getFirstChangeEpoch`,
`getLastChangeEpoch`, `calculateComplexityMetric`) and `utils/dateUtils`.

Modelling conventions:
* JavaScript `number` values carried by the tree (raw author weights and
  normalized percentages) are embedded as `ℚ` with exact arithmetic; the
  single IEEE-754 edge case the source can reach (division by a zero total,
  which produces `NaN`) is modelled separately and explicitly by `JsNum`.
* Unix timestamps and list lengths are embedded as `ℕ`.
* JavaScript objects used as ordered string-keyed records are embedded as
  association lists (`List (String × _)`), which capture insertion order the
  way JS object iteration does for non-numeric string keys.
* In-place mutation is embedded as state passing: each mutator returns the
  updated node.  A mutator that can throw a `TypeError` (dereferencing a
  missing `children` field with `children!.forEach`) returns `Option`,
  `none` being the thrown exception.
* `Array.prototype.sort` with comparator `(a, b) => k(b) - k(a)` is a stable
  descending sort by `k`; it is embedded as the stable insertion sort
  `sortByDesc k`.
* `Date#getDate/getMonth/getFullYear` are evaluated in the UTC timezone.
-/

/-- Raw commit record from the commit dictionary: `hash`, `message`,
`time` (unix seconds), `author`. -/
structure RawCommit where
  hash : String
  message : String
  time : Nat
  author : String
deriving DecidableEq, Repr

/-- Enriched commit record produced by `updateCommits`:
`hash`, `message`, formatted `date`. -/
structure Commit where
  hash : String
  message : String
  date : String
deriving DecidableEq, Repr

/-- The `commits` field of a node holds either a list of commit-hash strings
(before enrichment) or a list of enriched `Commit` records (after). -/
inductive CommitsField where
  | hashes (l : List String)
  | records (l : List Commit)
deriving DecidableEq, Repr

/-- The shared `TreeNode` shape: `type`, optional `authors` map, optional
`children`, optional `lastChangeEpoch`, optional `lastChangeEpochFormatted`,
optional `commits`, optional `singleAuthor`, optional `topContributor`. -/
inductive TreeNode where
  | mk (type : String) (authors : Option (List (String × ℚ)))
      (children : Option (List TreeNode))
      (lastChangeEpoch : Option Nat)
      (lastChangeEpochFormatted : Option String)
      (commits : Option CommitsField)
      (singleAuthor : Option Bool)
      (topContributor : Option String)

def TreeNode.type : TreeNode → String
  | .mk t _ _ _ _ _ _ _ => t

def TreeNode.authors : TreeNode → Option (List (String × ℚ))
  | .mk _ a _ _ _ _ _ _ => a

def TreeNode.children : TreeNode → Option (List TreeNode)
  | .mk _ _ c _ _ _ _ _ => c

def TreeNode.lastChangeEpoch : TreeNode → Option Nat
  | .mk _ _ _ e _ _ _ _ => e

def TreeNode.lastChangeEpochFormatted : TreeNode → Option String
  | .mk _ _ _ _ f _ _ _ => f

def TreeNode.commits : TreeNode → Option CommitsField
  | .mk _ _ _ _ _ c _ _ => c

def TreeNode.singleAuthor : TreeNode → Option Bool
  | .mk _ _ _ _ _ _ s _ => s

def TreeNode.topContributor : TreeNode → Option String
  | .mk _ _ _ _ _ _ _ t => t

mutual

/-- Preorder listing of all nodes of a tree (the node itself followed by the
nodes of all its children, in order). -/
def nodes : TreeNode → List TreeNode
  | .mk ty au ch ep epf cm sa tc =>
      .mk ty au ch ep epf cm sa tc :: nodesChildren ch

def nodesChildren : Option (List TreeNode) → List TreeNode
  | none => []
  | some l => nodesList l

def nodesList : List TreeNode → List TreeNode
  | [] => []
  | n :: ns => nodes n ++ nodesList ns

end

/-! ## dateUtils -/

/-- `convertUnixTimeToDate`: `new Date(unixTime * 1000)`; the `Date` value is
its count of milliseconds since the epoch. -/
def convertUnixTimeToDate (unixTime : Nat) : Nat :=
  unixTime * 1000

/-- The fixed 12-entry month-abbreviation table of `formatDate`. -/
def monthNames : List String :=
  ["Ene", "Feb", "Mar", "Abr", "May", "Jun", "Jul", "Ago", "Sep", "Oct", "Nov", "Dic"]

/-- Civil day-of-month, 0-based month and year of a count of days since
1970-01-01 (proleptic Gregorian calendar, UTC), as read off a JS `Date` by
`getDate`/`getMonth`/`getFullYear`. -/
def civilFromDays (days : Nat) : Nat × Nat × Nat :=
  let z := days + 719468
  let era := z / 146097
  let doe := z % 146097
  let yoe := (doe - doe / 1460 + doe / 36524 - doe / 146096) / 365
  let y := yoe + era * 400
  let doy := doe - (365 * yoe + yoe / 4 - yoe / 100)
  let mp := (5 * doy + 2) / 153
  let d := doy - (153 * mp + 2) / 5 + 1
  let m := if mp < 10 then mp + 3 else mp - 9
  (d, m - 1, if m ≤ 2 then y + 1 else y)

/-- `formatDate`: renders a `Date` (milliseconds since the epoch) as
`"{day} {monthAbbr} {year}"` using the `monthNames` table. -/
def formatDate (dateMs : Nat) : String :=
  let c := civilFromDays (dateMs / 1000 / 86400)
  let day := c.1
  let monthIndex := c.2.1
  let year := c.2.2
  let monthAbbr := (monthNames.get? monthIndex).getD ""
  s!"{day} {monthAbbr} {year}"

/-! ## A stable descending sort

`Array.prototype.sort` with comparator `(a, b) => key b - key a` sorts
descending by `key` and (per the ECMAScript specification) is stable.  It is
embedded as the stable insertion sort below: an element is inserted in front
of the first already-placed element whose key is `≤` its own, so an element
never moves in front of an equal-keyed element that preceded it. -/

def insertByDesc {α β : Type} [LinearOrder β] (key : α → β) (x : α) :
    List α → List α
  | [] => [x]
  | y :: ys => if key y ≤ key x then x :: y :: ys else y :: insertByDesc key x ys

def sortByDesc {α β : Type} [LinearOrder β] (key : α → β) : List α → List α
  | [] => []
  | x :: xs => insertByDesc key x (sortByDesc key xs)

/-! ## updateAuthorValues -/

/-- `totalSum`: `authorKeys.reduce((sum, key) => sum + authors[key], 0)`. -/
def totalWeight (l : List (String × ℚ)) : ℚ :=
  l.foldl (fun sum e => sum + e.2) 0

/-- The per-author percentage list built by `updateAuthorValues` before
sorting: each author is mapped to
`Math.round(weight / totalSum * 100)`. -/
def authorPercentages (l : List (String × ℚ)) : List (String × ℚ) :=
  l.map (fun e => (e.1, ((round (e.2 / totalWeight l * 100) : ℤ) : ℚ)))

/-- The body of `updateAuthorValues` on one `authors` record: compute
percentages, sort them descending by contribution (stably), and rebuild the
record in that order. -/
def normalizeAuthors (l : List (String × ℚ)) : List (String × ℚ) :=
  sortByDesc (fun e => e.2) (authorPercentages l)

mutual

/-- `updateAuthorValues`: if the node has an `authors` field, replace it by
its normalized form; if it has a `children` field, recurse into every child;
return the (mutated) node. -/
def updateAuthorValues : TreeNode → TreeNode
  | .mk ty au ch ep epf cm sa tc =>
      .mk ty (au.map normalizeAuthors) (updateAuthorValuesChildren ch) ep epf cm sa tc

def updateAuthorValuesChildren : Option (List TreeNode) → Option (List TreeNode)
  | none => none
  | some l => some (updateAuthorValuesList l)

def updateAuthorValuesList : List TreeNode → List TreeNode
  | [] => []
  | n :: ns => updateAuthorValues n :: updateAuthorValuesList ns

end

/-! ## updateLastChangeDate -/

mutual

/-- `updateLastChangeDate`: on a blob with a `lastChangeEpoch`, set
`lastChangeEpochFormatted`; otherwise, on a tree, recurse into
`children!` — dereferencing `children` unconditionally, so a tree node
without a `children` field throws a `TypeError` (modelled as `none`). -/
def updateLastChangeDate : TreeNode → Option TreeNode
  | .mk ty au ch ep epf cm sa tc =>
    if ty = "blob" ∧ ep.isSome then
      some (.mk ty au ch ep (ep.map (fun e => formatDate (convertUnixTimeToDate e))) cm sa tc)
    else if ty = "tree" then
      match ch with
      | none => none
      | some cs =>
        (updateLastChangeDateList cs).map
          (fun cs' => .mk ty au (some cs') ep epf cm sa tc)
    else
      some (.mk ty au ch ep epf cm sa tc)

def updateLastChangeDateList : List TreeNode → Option (List TreeNode)
  | [] => some []
  | n :: ns => do
    let n' ← updateLastChangeDate n
    let ns' ← updateLastChangeDateList ns
    pure (n' :: ns')

end

/-! ## updateCommits -/

/-- The property key a plain JS object coerces to when it is used to index
another object (`commitsJson[commitHash]` with `commitHash` an enriched
record instead of a string). -/
def objectKeyString : String :=
  "[object Object]"

/-- `commitList`: map each element of the `commits` field through the commit
dictionary and keep the hits.  A hash-string element looks itself up; an
enriched-record element is coerced to the property key `"[object Object]"`.
Misses (`undefined`) are filtered out. -/
def resolveCommits (d : List (String × RawCommit)) : CommitsField → List RawCommit
  | .hashes hs => (hs.map (fun h => List.lookup h d)).filterMap id
  | .records rs => (rs.map (fun _ => List.lookup objectKeyString d)).filterMap id

/-- The enriched record built from one resolved raw commit:
`{ hash, message, date: formatDate(convertUnixTimeToDate(time)) }`. -/
def enrichCommit (c : RawCommit) : Commit :=
  ⟨c.hash, c.message, formatDate (convertUnixTimeToDate c.time)⟩

mutual

/-- `updateCommits`: on a blob whose `commits` field is defined, resolve the
list through the dictionary, sort it descending by raw `time`
(`commitList.sort((a, b) => b.time - a.time)`, a stable sort), map it to
enriched records and store it back; otherwise, on a tree, recurse into
`children!` — a tree node without a `children` field throws a `TypeError`
(modelled as `none`). -/
def updateCommits (d : List (String × RawCommit)) : TreeNode → Option TreeNode
  | .mk ty au ch ep epf cm sa tc =>
    if ty = "blob" ∧ cm.isSome then
      some (.mk ty au ch ep epf
        (cm.map (fun cf => CommitsField.records
          ((sortByDesc (fun c => c.time) (resolveCommits d cf)).map enrichCommit)))
        sa tc)
    else if ty = "tree" then
      match ch with
      | none => none
      | some cs =>
        (updateCommitsList d cs).map
          (fun cs' => .mk ty au (some cs') ep epf cm sa tc)
    else
      some (.mk ty au ch ep epf cm sa tc)

def updateCommitsList (d : List (String × RawCommit)) :
    List TreeNode → Option (List TreeNode)
  | [] => some []
  | n :: ns => do
    let n' ← updateCommits d n
    let ns' ← updateCommitsList d ns
    pure (n' :: ns')

end

/-! ## addTopContributor, addSingleAuthor, addMetrics -/

/-- One step of the `addTopContributor` scan: the accumulator is the pair
`(maxContributions, topContributor)` and is replaced exactly when the
current contribution is strictly greater than the running maximum. -/
def scanTopStep (acc : ℚ × String) (e : String × ℚ) : ℚ × String :=
  if acc.1 < e.2 then (e.2, e.1) else acc

/-- The `addTopContributor` scan over one `authors` record: running maximum
starting from `maxContributions = -1`, `topContributor = ""`. -/
def scanTop (l : List (String × ℚ)) : String :=
  (l.foldl scanTopStep (-1, "")).2

mutual

/-- `addTopContributor`: on a blob, set `topContributor` to the scan of its
`authors` record (the empty record when `authors` is absent); recurse into
the children when there are any. -/
def addTopContributor : TreeNode → TreeNode
  | .mk ty au ch ep epf cm sa tc =>
      .mk ty au (addTopContributorChildren ch) ep epf cm sa
        (if ty = "blob" then some (scanTop (au.getD [])) else tc)

def addTopContributorChildren : Option (List TreeNode) → Option (List TreeNode)
  | none => none
  | some l => some (addTopContributorList l)

def addTopContributorList : List TreeNode → List TreeNode
  | [] => []
  | n :: ns => addTopContributor n :: addTopContributorList ns

end

mutual

/-- `addSingleAuthor`: on a blob, set
`singleAuthor = Object.keys(authors || {}).length === 1`; then recurse into
the children when there are any — but through `addMetrics`, so each child is
processed by `addSingleAuthor` and then by `addTopContributor`. -/
def addSingleAuthor : TreeNode → TreeNode
  | .mk ty au ch ep epf cm sa tc =>
      .mk ty au (addSingleAuthorChildren ch) ep epf cm
        (if ty = "blob" then some (decide ((au.getD []).length = 1)) else sa) tc

def addSingleAuthorChildren : Option (List TreeNode) → Option (List TreeNode)
  | none => none
  | some l => some (addSingleAuthorList l)

def addSingleAuthorList : List TreeNode → List TreeNode
  | [] => []
  | n :: ns => addTopContributor (addSingleAuthor n) :: addSingleAuthorList ns

end

/-- `addMetrics`: run `addSingleAuthor` and then `addTopContributor` on the
node (sequential in-place mutation, embedded as composition). -/
def addMetrics (n : TreeNode) : TreeNode :=
  addTopContributor (addSingleAuthor n)

/-! ## The four aggregate reductions

`getMinCommits` and `getFirstChangeEpoch` share one recursion shape:
a running value starting at `Infinity` (embedded as `none`), lowered by the
node's own reading (when it is a blob carrying the field) and by the — already
collapsed — recursive value of every child, and finally collapsed to `0` when
still `Infinity`.  `getMaxCommits` and `getLastChangeEpoch` share the dual
shape with a running `ℕ` starting at `0`.  The reading itself is the
parameter `f`. -/

mutual

def minAgg (f : TreeNode → Option Nat) : TreeNode → Nat
  | n@(.mk _ _ ch _ _ _ _ _) =>
    match ch with
    | none => (f n).getD 0
    | some cs => (minAggFold f (f n) cs).getD 0

def minAggFold (f : TreeNode → Option Nat) :
    Option Nat → List TreeNode → Option Nat
  | m, [] => m
  | m, c :: cs =>
    minAggFold f
      (some (match m with
        | none => minAgg f c
        | some x => min x (minAgg f c))) cs

end

mutual

def maxAgg (f : TreeNode → Option Nat) : TreeNode → Nat
  | n@(.mk _ _ ch _ _ _ _ _) =>
    match ch with
    | none => (f n).getD 0
    | some cs => maxAggFold f ((f n).getD 0) cs

def maxAggFold (f : TreeNode → Option Nat) : Nat → List TreeNode → Nat
  | m, [] => m
  | m, c :: cs => maxAggFold f (max m (maxAgg f c)) cs

end

/-- The local reading of `getMinCommits`/`getMaxCommits`:
`jsonObj.type === 'blob' && jsonObj.commits !== undefined` guards
`jsonObj.commits.length`. -/
def localCommitsLength (n : TreeNode) : Option Nat :=
  if n.type = "blob" then
    n.commits.map (fun cf => match cf with
      | .hashes l => l.length
      | .records l => l.length)
  else none

/-- The local reading of `getFirstChangeEpoch`/`getLastChangeEpoch`:
`jsonObj.type === 'blob' && jsonObj.lastChangeEpoch !== undefined` guards
`jsonObj.lastChangeEpoch`. -/
def localEpoch (n : TreeNode) : Option Nat :=
  if n.type = "blob" then n.lastChangeEpoch else none

/-- `getMinCommits`. -/
def getMinCommits : TreeNode → Nat :=
  minAgg localCommitsLength

/-- `getMaxCommits`. -/
def getMaxCommits : TreeNode → Nat :=
  maxAgg localCommitsLength

/-- `getFirstChangeEpoch`. -/
def getFirstChangeEpoch : TreeNode → Nat :=
  minAgg localEpoch

/-- `getLastChangeEpoch`. -/
def getLastChangeEpoch : TreeNode → Nat :=
  maxAgg localEpoch

/-! ## calculateComplexityMetric -/

mutual

/-- The inner `calculateComplexity` of `calculateComplexityMetric`: a blob
counts `1`; otherwise the node counts the sum over its children, `0` when it
has none. -/
def calculateComplexity : TreeNode → Nat
  | .mk ty _ ch _ _ _ _ _ =>
    if ty = "blob" then 1
    else
      match ch with
      | none => 0
      | some cs => calculateComplexityList cs

def calculateComplexityList : List TreeNode → Nat
  | [] => 0
  | c :: cs => calculateComplexity c + calculateComplexityList cs

end

/-- `authorComplexity[author] += c`, inserting the author with `0` first when
absent (the JS truthiness test also resets an existing `0` entry to `0`,
which is the identity). -/
def bumpAuthor (m : List (String × Nat)) (a : String) (c : Nat) :
    List (String × Nat) :=
  match m with
  | [] => [(a, c)]
  | e :: es => if e.1 = a then (e.1, e.2 + c) :: es else e :: bumpAuthor es a c

/-- The `traverseTree` body for one node's `authors` record: every listed
author is credited with that node's `calculateComplexity`. -/
def creditAuthors (m : List (String × Nat)) (l : List (String × ℚ)) (c : Nat) :
    List (String × Nat) :=
  l.foldl (fun m e => bumpAuthor m e.1 c) m

mutual

/-- The `traverseTree` recursion of `calculateComplexityMetric`: credit the
node's authors (when it has an `authors` field), then recurse into the
children (when it has a `children` field), threading the accumulator. -/
def traverseTree (m : List (String × Nat)) : TreeNode → List (String × Nat)
  | n@(.mk _ au ch _ _ _ _ _) =>
    let m1 := match au with
      | none => m
      | some l => creditAuthors m l (calculateComplexity n)
    match ch with
    | none => m1
    | some cs => traverseTreeList m1 cs

def traverseTreeList (m : List (String × Nat)) :
    List TreeNode → List (String × Nat)
  | [] => m
  | c :: cs => traverseTreeList (traverseTree m c) cs

end

/-- `calculateComplexityMetric`: traverse the whole tree starting from an
empty accumulator. -/
def calculateComplexityMetric (t : TreeNode) : List (String × Nat) :=
  traverseTree [] t

/-! ## Lemmas about the stable descending sort -/

theorem perm_insertByDesc {α β : Type} [LinearOrder β] (key : α → β) (x : α)
    (l : List α) : (insertByDesc key x l).Perm (x :: l) := by
  induction l with
  | nil => simp [insertByDesc]
  | cons y ys ih =>
    by_cases h : key y ≤ key x
    · simp [insertByDesc, h]
    · simpa [insertByDesc, h] using ((ih.cons y).trans (List.Perm.swap x y ys))

theorem perm_sortByDesc {α β : Type} [LinearOrder β] (key : α → β)
    (l : List α) : (sortByDesc key l).Perm l := by
  induction l with
  | nil => simp [sortByDesc]
  | cons x xs ih =>
    exact (perm_insertByDesc key x (sortByDesc key xs)).trans (ih.cons x)

theorem mem_insertByDesc {α β : Type} [LinearOrder β] {key : α → β} {x z : α}
    {l : List α} : z ∈ insertByDesc key x l ↔ z = x ∨ z ∈ l :=
  (perm_insertByDesc key x l).mem_iff.trans List.mem_cons

theorem pairwise_insertByDesc {α β : Type} [LinearOrder β] (key : α → β)
    (x : α) (l : List α)
    (h : l.Pairwise (fun a b => key b ≤ key a)) :
    (insertByDesc key x l).Pairwise (fun a b => key b ≤ key a) := by
  induction l with
  | nil => simp [insertByDesc]
  | cons y ys ih =>
    rcases List.pairwise_cons.mp h with ⟨hy, hys⟩
    rw [insertByDesc]
    by_cases hxy : key y ≤ key x
    · rw [if_pos hxy]
      refine List.pairwise_cons.mpr ⟨?_, h⟩
      intro z hz
      rcases List.mem_cons.mp hz with rfl | hz
      · exact hxy
      · exact le_trans (hy z hz) hxy
    · rw [if_neg hxy]
      refine List.pairwise_cons.mpr ⟨?_, ih hys⟩
      intro z hz
      rcases mem_insertByDesc.mp hz with rfl | hz
      · exact le_of_not_le hxy
      · exact hy z hz

theorem pairwise_sortByDesc {α β : Type} [LinearOrder β] (key : α → β)
    (l : List α) :
    (sortByDesc key l).Pairwise (fun a b => key b ≤ key a) := by
  induction l with
  | nil => simp [sortByDesc]
  | cons x xs ih => exact pairwise_insertByDesc key x _ ih

theorem filter_insertByDesc {α β : Type} [LinearOrder β] (key : α → β)
    (x : α) (l : List α) (c : β) :
    (insertByDesc key x l).filter (fun e => key e = c)
      = if key x = c then x :: l.filter (fun e => key e = c)
        else l.filter (fun e => key e = c) := by
  induction l with
  | nil => by_cases h : key x = c <;> simp [insertByDesc, List.filter, h]
  | cons y ys ih =>
    rw [insertByDesc]
    by_cases hxy : key y ≤ key x
    · rw [if_pos hxy]
      by_cases hx : key x = c <;> by_cases hy : key y = c <;>
        simp [List.filter_cons, hx, hy]
    · rw [if_neg hxy]
      have hyx : key x < key y := lt_of_not_le hxy
      by_cases hy : key y = c
      · have hx : ¬ key x = c := by
          intro hx
          exact absurd (hx.trans hy.symm) (ne_of_lt hyx)
        simp [List.filter_cons, hy, hx, ih]
      · by_cases hx : key x = c <;> simp [List.filter_cons, hy, hx, ih]

theorem filter_sortByDesc {α β : Type} [LinearOrder β] (key : α → β)
    (l : List α) (c : β) :
    (sortByDesc key l).filter (fun e => key e = c)
      = l.filter (fun e => key e = c) := by
  induction l with
  | nil => simp [sortByDesc]
  | cons x xs ih =>
    rw [sortByDesc, filter_insertByDesc]
    by_cases hx : key x = c <;> simp [List.filter_cons, hx, ih]

/-! ## Lemmas about rounding and the percentage formula -/

theorem round_mono_rat {x y : ℚ} (h : x ≤ y) : round x ≤ round y := by
  rw [round_eq, round_eq]
  exact Int.floor_le_floor (by linarith)

theorem totalWeight_eq_sum (l : List (String × ℚ)) :
    totalWeight l = (l.map Prod.snd).sum := by
  have aux : ∀ (l : List (String × ℚ)) (s : ℚ),
      l.foldl (fun sum e => sum + e.2) s = s + (l.map Prod.snd).sum := by
    intro l
    induction l with
    | nil => intro s; simp
    | cons e es ih => intro s; simp [List.foldl_cons, ih, add_assoc]
  simpa using aux l 0

/-- With non-negative weights and a positive total, every percentage produced
by the `Math.round(weight / total * 100)` formula lies in `[0, 100]` and is an
integer. -/
theorem authorPercentages_bounds (l : List (String × ℚ))
    (hnn : ∀ e ∈ l, 0 ≤ e.2) (hpos : 0 < totalWeight l) :
    ∀ e ∈ authorPercentages l, (∃ z : ℤ, e.2 = (z : ℚ)) ∧ 0 ≤ e.2 ∧ e.2 ≤ 100 := by
  intro e he
  rcases List.mem_map.mp he with ⟨w, hw, rfl⟩
  refine ⟨⟨round (w.2 / totalWeight l * 100), rfl⟩, ?_, ?_⟩
  · show (0 : ℚ) ≤ ((round (w.2 / totalWeight l * 100) : ℤ) : ℚ)
    have h0 : (0 : ℤ) ≤ round (w.2 / totalWeight l * 100) := by
      have hq : (0 : ℚ) ≤ w.2 / totalWeight l * 100 := by
        have := hnn w hw
        positivity
      calc (0 : ℤ) = round (0 : ℚ) := by simp
        _ ≤ round (w.2 / totalWeight l * 100) := round_mono_rat hq
    exact_mod_cast h0
  · show ((round (w.2 / totalWeight l * 100) : ℤ) : ℚ) ≤ 100
    have hle : w.2 ≤ totalWeight l := by
      rw [totalWeight_eq_sum]
      refine List.single_le_sum ?_ w.2 (List.mem_map.mpr ⟨w, hw, rfl⟩)
      intro x hx
      rcases List.mem_map.mp hx with ⟨y, hy, rfl⟩
      exact hnn y hy
    have hq : w.2 / totalWeight l * 100 ≤ 100 := by
      have hdiv : w.2 / totalWeight l ≤ 1 := (div_le_one hpos).mpr hle
      calc w.2 / totalWeight l * 100 ≤ 1 * 100 := by
            exact mul_le_mul_of_nonneg_right hdiv (by norm_num)
        _ = 100 := by norm_num
    have h100 : round (w.2 / totalWeight l * 100) ≤ (100 : ℤ) := by
      calc round (w.2 / totalWeight l * 100) ≤ round (100 : ℚ) := round_mono_rat hq
        _ = 100 := by norm_num [round_eq]
    exact_mod_cast h100

/-! ## Node-list correspondence for updateAuthorValues -/

mutual

theorem map_authors_nodes_updateAuthorValues (t : TreeNode) :
    (nodes (updateAuthorValues t)).map TreeNode.authors
      = ((nodes t).map TreeNode.authors).map (Option.map normalizeAuthors) := by
  match t with
  | .mk ty au ch ep epf cm sa tc =>
    simp [nodes, updateAuthorValues, map_authors_nodesChildren_updateAuthorValues ch,
      TreeNode.authors]

theorem map_authors_nodesChildren_updateAuthorValues (ch : Option (List TreeNode)) :
    (nodesChildren (updateAuthorValuesChildren ch)).map TreeNode.authors
      = ((nodesChildren ch).map TreeNode.authors).map (Option.map normalizeAuthors) := by
  match ch with
  | none => simp [nodesChildren, updateAuthorValuesChildren]
  | some l =>
    simp [nodesChildren, updateAuthorValuesChildren,
      map_authors_nodesList_updateAuthorValues l]

theorem map_authors_nodesList_updateAuthorValues (l : List TreeNode) :
    (nodesList (updateAuthorValuesList l)).map TreeNode.authors
      = ((nodesList l).map TreeNode.authors).map (Option.map normalizeAuthors) := by
  match l with
  | [] => simp [nodesList, updateAuthorValuesList]
  | n :: ns =>
    simp [nodesList, updateAuthorValuesList, map_authors_nodes_updateAuthorValues n,
      map_authors_nodesList_updateAuthorValues ns]

end

/-- Transfer of a function along equal mapped lists: if `l₁.map f = l₂.map g`
then at equal positions `f` and `g` agree. -/
theorem map_eq_get {α β γ : Type} {f : α → γ} {g : β → γ} {l₁ : List α}
    {l₂ : List β} (h : l₁.map f = l₂.map g) (i : Nat) (h₁ : i < l₁.length)
    (h₂ : i < l₂.length) : f (l₁.get ⟨i, h₁⟩) = g (l₂.get ⟨i, h₂⟩) := by
  have h' : ((l₁.map f).get? i) = ((l₂.map g).get? i) := by rw [h]
  rw [List.get?_map, List.get?_map, List.get?_eq_get h₁, List.get?_eq_get h₂] at h'
  simpa using h'

/-! ## Claim C1 -/

/-- C1: for every tree and every node in it that carries an `authors` map
with at least one author, non-negative raw weights and positive total raw
weight, after `updateAuthorValues` runs, the node at the same (preorder)
position maps each author to `round(weight/totalWeight × 100)` — a
non-negative integer at most `100` — and its entries are ordered descending
by that percentage, equal-percentage authors keeping the relative order they
had in the original raw-weight map's iteration (`authorPercentages w` lists
the percentages in the original iteration order). -/
theorem c1_updateAuthorValues_normalizes (t : TreeNode) (i : Nat)
    (h : i < (nodes t).length) (w : List (String × ℚ))
    (hw : ((nodes t).get ⟨i, h⟩).authors = some w)
    (hne : w ≠ []) (hnn : ∀ e ∈ w, 0 ≤ e.2) (hpos : 0 < totalWeight w) :
    ∃ h' : i < (nodes (updateAuthorValues t)).length,
      ((nodes (updateAuthorValues t)).get ⟨i, h'⟩).authors
          = some (normalizeAuthors w)
        ∧ (normalizeAuthors w).Perm (authorPercentages w)
        ∧ (∀ e ∈ normalizeAuthors w, (∃ z : ℤ, e.2 = (z : ℚ)) ∧ 0 ≤ e.2 ∧ e.2 ≤ 100)
        ∧ (normalizeAuthors w).Pairwise (fun a b => b.2 ≤ a.2)
        ∧ ∀ c : ℚ, (normalizeAuthors w).filter (fun e => e.2 = c)
            = (authorPercentages w).filter (fun e => e.2 = c) := by
  have hcorr := map_authors_nodes_updateAuthorValues t
  have hlen : (nodes (updateAuthorValues t)).length = (nodes t).length := by
    have := congrArg List.length hcorr
    simpa using this
  refine ⟨by rw [hlen]; exact h, ?_, ?_, ?_, ?_, ?_⟩
  · have := @map_eq_get TreeNode TreeNode (Option (List (String × ℚ)))
      TreeNode.authors (fun n => Option.map normalizeAuthors (TreeNode.authors n))
      (nodes (updateAuthorValues t)) (nodes t)
      (by rw [hcorr, List.map_map]; rfl) i (by rw [hlen]; exact h) h
    rw [this, hw]
    rfl
  · exact perm_sortByDesc (fun e => e.2) (authorPercentages w)
  · intro e he
    have he' : e ∈ authorPercentages w :=
      (perm_sortByDesc (fun e : String × ℚ => e.2) (authorPercentages w)).mem_iff.mp
        (by simpa [normalizeAuthors] using he)
    exact authorPercentages_bounds w hnn hpos e he'
  · exact pairwise_sortByDesc (fun e => e.2) (authorPercentages w)
  · intro c
    exact filter_sortByDesc (fun e => e.2) (authorPercentages w) c

/-- Concrete tree used to witness C1: a root directory holding one blob with
raw weights `{A: 3, B: 1}`. -/
def c1WitnessTree : TreeNode :=
  .mk "tree" none
    (some [.mk "blob" (some [("A", 3), ("B", 1)]) none none none none none none])
    none none none none none

theorem c1_witness :
    (∃ h : 1 < (nodes c1WitnessTree).length,
        ((nodes c1WitnessTree).get ⟨1, h⟩).authors = some [("A", (3 : ℚ)), ("B", 1)])
      ∧ ([("A", (3 : ℚ)), ("B", 1)] ≠ [])
      ∧ (∀ e ∈ [("A", (3 : ℚ)), ("B", 1)], 0 ≤ e.2)
      ∧ (0 < totalWeight [("A", (3 : ℚ)), ("B", 1)])
      ∧ ∃ h' : 1 < (nodes (updateAuthorValues c1WitnessTree)).length,
          ((nodes (updateAuthorValues c1WitnessTree)).get ⟨1, h'⟩).authors
              = some (normalizeAuthors [("A", (3 : ℚ)), ("B", 1)])
            ∧ (normalizeAuthors [("A", (3 : ℚ)), ("B", 1)]).Perm
                (authorPercentages [("A", (3 : ℚ)), ("B", 1)])
            ∧ (∀ e ∈ normalizeAuthors [("A", (3 : ℚ)), ("B", 1)],
                (∃ z : ℤ, e.2 = (z : ℚ)) ∧ 0 ≤ e.2 ∧ e.2 ≤ 100)
            ∧ (normalizeAuthors [("A", (3 : ℚ)), ("B", 1)]).Pairwise
                (fun a b => b.2 ≤ a.2)
            ∧ ∀ c : ℚ, (normalizeAuthors [("A", (3 : ℚ)), ("B", 1)]).filter
                  (fun e => e.2 = c)
                = (authorPercentages [("A", (3 : ℚ)), ("B", 1)]).filter
                  (fun e => e.2 = c) :=
  ⟨⟨by decide, rfl⟩, by decide, by norm_num, by norm_num [totalWeight],
    c1_updateAuthorValues_normalizes c1WitnessTree 1 (by decide)
      [("A", (3 : ℚ)), ("B", 1)] rfl (by decide) (by norm_num)
      (by norm_num [totalWeight])⟩

/-! ## Claim C2 -/

theorem resolveCommits_hashes_eq (d : List (String × RawCommit)) (hs : List String) :
    resolveCommits d (.hashes hs) = hs.filterMap (fun h => List.lookup h d) := by
  simp [resolveCommits, List.filterMap_map]

theorem filterMap_length_add {α β : Type} (f : α → Option β) (l : List α) :
    (l.filterMap f).length + (l.filter (fun a => (f a).isNone)).length = l.length := by
  induction l with
  | nil => simp
  | cons a as ih =>
    cases h : f a <;> simp [List.filterMap_cons, List.filter_cons, h] <;> omega

/-- C2: `updateCommits` on a blob holding a list of hash strings replaces it
with one enriched record per hash found in the dictionary: missing hashes are
silently dropped (the run succeeds), the output length is the input length
minus the number of missing hashes, and the retained raw commits are sorted
descending by `time`, equal times keeping their original relative order. -/
theorem c2_updateCommits_enriches (n : TreeNode) (d : List (String × RawCommit))
    (hs : List String) (hb : n.type = "blob")
    (hc : n.commits = some (.hashes hs)) :
    ∃ n', updateCommits d n = some n'
      ∧ n'.commits = some (.records
          ((sortByDesc (fun c => c.time)
            (hs.filterMap (fun h => List.lookup h d))).map enrichCommit))
      ∧ ((sortByDesc (fun c => c.time)
            (hs.filterMap (fun h => List.lookup h d))).map enrichCommit).length
          = hs.length - (hs.filter (fun h => (List.lookup h d).isNone)).length
      ∧ (sortByDesc (fun c => c.time)
            (hs.filterMap (fun h => List.lookup h d))).Pairwise
          (fun a b => b.time ≤ a.time)
      ∧ ∀ t : Nat, (sortByDesc (fun c => c.time)
              (hs.filterMap (fun h => List.lookup h d))).filter
            (fun c => c.time = t)
          = (hs.filterMap (fun h => List.lookup h d)).filter
            (fun c => c.time = t) := by
  match n with
  | .mk ty au ch ep epf cm sa tc =>
    have hty : ty = "blob" := hb
    have hcm : cm = some (.hashes hs) := hc
    subst hty
    subst hcm
    refine ⟨.mk "blob" au ch ep epf
        (some (.records ((sortByDesc (fun c => c.time)
          (resolveCommits d (.hashes hs))).map enrichCommit))) sa tc,
      ?_, ?_, ?_, ?_, ?_⟩
    · simp [updateCommits]
    · simp [TreeNode.commits, resolveCommits_hashes_eq]
    · have hlen := filterMap_length_add (fun h => List.lookup h d) hs
      have hperm : (sortByDesc (fun c => c.time)
          (hs.filterMap (fun h => List.lookup h d))).length
            = (hs.filterMap (fun h => List.lookup h d)).length :=
        (perm_sortByDesc _ _).length_eq
      simp only [List.length_map]
      omega
    · exact pairwise_sortByDesc _ _
    · intro t
      exact filter_sortByDesc (fun c : RawCommit => c.time)
        (hs.filterMap (fun h => List.lookup h d)) t

/-- Concrete blob used to witness C2: commit list `["h1", "hx", "h2"]` with
`hx` missing from the dictionary and `h2` newer than `h1`. -/
def c2WitnessBlob : TreeNode :=
  .mk "blob" none none none none (some (.hashes ["h1", "hx", "h2"])) none none

/-- Concrete commit dictionary used to witness C2. -/
def c2WitnessDict : List (String × RawCommit) :=
  [("h1", ⟨"h1", "m1", 5, "A"⟩), ("h2", ⟨"h2", "m2", 9, "B"⟩)]

theorem c2_witness :
    c2WitnessBlob.type = "blob"
      ∧ c2WitnessBlob.commits = some (.hashes ["h1", "hx", "h2"])
      ∧ ∃ n', updateCommits c2WitnessDict c2WitnessBlob = some n'
        ∧ n'.commits = some (.records
            ((sortByDesc (fun c : RawCommit => c.time)
              (["h1", "hx", "h2"].filterMap
                (fun h => List.lookup h c2WitnessDict))).map enrichCommit))
        ∧ ((sortByDesc (fun c : RawCommit => c.time)
              (["h1", "hx", "h2"].filterMap
                (fun h => List.lookup h c2WitnessDict))).map enrichCommit).length
            = (["h1", "hx", "h2"] : List String).length
              - (["h1", "hx", "h2"].filter
                  (fun h => (List.lookup h c2WitnessDict).isNone)).length
        ∧ (sortByDesc (fun c : RawCommit => c.time)
              (["h1", "hx", "h2"].filterMap
                (fun h => List.lookup h c2WitnessDict))).Pairwise
            (fun a b => b.time ≤ a.time)
        ∧ ∀ t : Nat, (sortByDesc (fun c : RawCommit => c.time)
                (["h1", "hx", "h2"].filterMap
                  (fun h => List.lookup h c2WitnessDict))).filter
              (fun c => c.time = t)
            = (["h1", "hx", "h2"].filterMap
                (fun h => List.lookup h c2WitnessDict)).filter
              (fun c => c.time = t) :=
  ⟨rfl, rfl, c2_updateCommits_enriches c2WitnessBlob c2WitnessDict
    ["h1", "hx", "h2"] rfl rfl⟩

/-! ## Claim C5 -/

theorem resolveCommits_records_of_miss (d : List (String × RawCommit))
    (rs : List Commit) (hmiss : List.lookup objectKeyString d = none) :
    resolveCommits d (.records rs) = [] := by
  induction rs with
  | nil => simp [resolveCommits]
  | cons r rs ih =>
    simp only [resolveCommits, List.map_cons, hmiss, List.filterMap_cons] at ih ⊢
    exact ih

/-- C5: a second run of `updateCommits` on a blob whose `commits` field
already holds enriched records does not fail with an exception but destroys
the data: each record is coerced to the property key `"[object Object]"`,
which (for a dictionary without that key) misses, so every entry is dropped
and the field becomes an empty record list — the operation is not idempotent
and not safely re-runnable. -/
theorem c5_updateCommits_second_run (n : TreeNode) (d : List (String × RawCommit))
    (rs : List Commit) (hb : n.type = "blob")
    (hc : n.commits = some (.records rs))
    (hmiss : List.lookup objectKeyString d = none) :
    ∃ n', updateCommits d n = some n'
      ∧ n'.commits = some (.records [])
      ∧ (rs ≠ [] → n'.commits ≠ n.commits) := by
  match n with
  | .mk ty au ch ep epf cm sa tc =>
    have hty : ty = "blob" := hb
    have hcm : cm = some (.records rs) := hc
    subst hty
    subst hcm
    refine ⟨.mk "blob" au ch ep epf (some (.records [])) sa tc, ?_, rfl, ?_⟩
    · simp [updateCommits, resolveCommits_records_of_miss d rs hmiss, sortByDesc]
    · intro hne h
      simp only [TreeNode.commits, Option.some.injEq, CommitsField.records.injEq] at h
      exact hne h.symm

/-- Concrete already-enriched blob used to witness C5. -/
def c5WitnessBlob : TreeNode :=
  .mk "blob" none none none none
    (some (.records [⟨"h1", "m1", "14 Nov 2023"⟩])) none none

theorem c5_witness :
    c5WitnessBlob.type = "blob"
      ∧ c5WitnessBlob.commits = some (.records [⟨"h1", "m1", "14 Nov 2023"⟩])
      ∧ List.lookup objectKeyString ([] : List (String × RawCommit)) = none
      ∧ ∃ n', updateCommits [] c5WitnessBlob = some n'
        ∧ n'.commits = some (.records [])
        ∧ (([⟨"h1", "m1", "14 Nov 2023"⟩] : List Commit) ≠ []
            → n'.commits ≠ c5WitnessBlob.commits) :=
  ⟨rfl, rfl, rfl,
    c5_updateCommits_second_run c5WitnessBlob [] [⟨"h1", "m1", "14 Nov 2023"⟩]
      rfl rfl rfl⟩

/-! ## Claim C9 -/

/-- Concrete childless `tree` node carrying an `authors` map, used to refute
the "unchanged" part of C9. -/
def c9Node : TreeNode :=
  .mk "tree" (some [("A", 1)]) none none none none none none

/-- C9 counterexample: on a childless tree node `updateLastChangeDate` and
`updateCommits` do throw (`none`), but `updateAuthorValues` does NOT leave
the node unchanged when it carries an `authors` map: the raw weight `{A: 1}`
is rewritten to the percentage `{A: 100}`. -/
theorem c9_counterexample :
    c9Node.type = "tree" ∧ c9Node.children = none
      ∧ updateLastChangeDate c9Node = none
      ∧ updateCommits [] c9Node = none
      ∧ (updateAuthorValues c9Node).authors = some [("A", 100)]
      ∧ c9Node.authors = some [("A", 1)]
      ∧ (updateAuthorValues c9Node).authors ≠ c9Node.authors := by
  have hnorm : normalizeAuthors [("A", (1 : ℚ))] = [("A", 100)] := by
    norm_num [normalizeAuthors, authorPercentages, totalWeight, round_eq,
      sortByDesc, insertByDesc]
  refine ⟨rfl, rfl, by simp [c9Node, updateLastChangeDate],
    by simp [c9Node, updateCommits], ?_, rfl, ?_⟩
  · simp [c9Node, updateAuthorValues, updateAuthorValuesChildren,
      TreeNode.authors, hnorm]
  · simp [c9Node, updateAuthorValues, updateAuthorValuesChildren,
      TreeNode.authors, hnorm]

/-- C9 amended: a missing `children` field on a `tree` node makes
`updateLastChangeDate` and `updateCommits` throw a `TypeError` (modelled as
`none`), while `updateAuthorValues` still succeeds — leaving the node
unchanged exactly when it carries no `authors` map (when it does, the map is
normalized in place). -/
theorem c9_amended_childless_tree (n : TreeNode) (d : List (String × RawCommit))
    (hty : n.type = "tree") (hch : n.children = none) :
    updateLastChangeDate n = none
      ∧ updateCommits d n = none
      ∧ (n.authors = none → updateAuthorValues n = n) := by
  match n with
  | .mk ty au ch ep epf cm sa tc =>
    have hty' : ty = "tree" := hty
    have hch' : ch = none := hch
    subst hty'
    subst hch'
    refine ⟨by simp [updateLastChangeDate], by simp [updateCommits], ?_⟩
    intro hau
    have hau' : au = none := hau
    subst hau'
    simp [updateAuthorValues, updateAuthorValuesChildren]

theorem c9_amended_witness :
    c9Node.type = "tree" ∧ c9Node.children = none
      ∧ (updateLastChangeDate c9Node = none
          ∧ updateCommits [] c9Node = none
          ∧ (c9Node.authors = none → updateAuthorValues c9Node = c9Node)) :=
  ⟨rfl, rfl, c9_amended_childless_tree c9Node [] rfl rfl⟩

/-! ## Traversal lemmas for the metric annotators -/

mutual

/-- `addTopContributor` changes no node's `type`, `authors` or
`singleAuthor`. -/
theorem map_proj_nodes_addTopContributor (t : TreeNode) :
    (nodes (addTopContributor t)).map (fun n => (n.type, n.authors, n.singleAuthor))
      = (nodes t).map (fun n => (n.type, n.authors, n.singleAuthor)) := by
  match t with
  | .mk ty au ch ep epf cm sa tc =>
    simp only [addTopContributor, nodes, List.map_cons]
    rw [map_proj_nodesChildren_addTopContributor ch]
    rfl

theorem map_proj_nodesChildren_addTopContributor (ch : Option (List TreeNode)) :
    (nodesChildren (addTopContributorChildren ch)).map
        (fun n => (n.type, n.authors, n.singleAuthor))
      = (nodesChildren ch).map (fun n => (n.type, n.authors, n.singleAuthor)) := by
  match ch with
  | none => simp [nodesChildren, addTopContributorChildren]
  | some l =>
    simp [nodesChildren, addTopContributorChildren,
      map_proj_nodesList_addTopContributor l]

theorem map_proj_nodesList_addTopContributor (l : List TreeNode) :
    (nodesList (addTopContributorList l)).map
        (fun n => (n.type, n.authors, n.singleAuthor))
      = (nodesList l).map (fun n => (n.type, n.authors, n.singleAuthor)) := by
  match l with
  | [] => simp [nodesList, addTopContributorList]
  | n :: ns =>
    simp [nodesList, addTopContributorList, map_proj_nodes_addTopContributor n,
      map_proj_nodesList_addTopContributor ns]

end

mutual

/-- After `addTopContributor`, every blob node of the result carries
`topContributor = scanTop` of its own `authors` record. -/
theorem topContributor_set_nodes (t : TreeNode) :
    ∀ x ∈ nodes (addTopContributor t), x.type = "blob" →
      x.topContributor = some (scanTop (x.authors.getD [])) := by
  match t with
  | .mk ty au ch ep epf cm sa tc =>
    intro x hx hb
    rw [addTopContributor, nodes] at hx
    rcases List.mem_cons.mp hx with rfl | hx
    · have hty : ty = "blob" := hb
      subst hty
      simp [TreeNode.topContributor, TreeNode.authors]
    · exact topContributor_set_nodesChildren ch x hx hb

theorem topContributor_set_nodesChildren (ch : Option (List TreeNode)) :
    ∀ x ∈ nodesChildren (addTopContributorChildren ch), x.type = "blob" →
      x.topContributor = some (scanTop (x.authors.getD [])) := by
  match ch with
  | none => intro x hx; simp [nodesChildren, addTopContributorChildren] at hx
  | some l =>
    intro x hx hb
    rw [addTopContributorChildren, nodesChildren] at hx
    exact topContributor_set_nodesList l x hx hb

theorem topContributor_set_nodesList (l : List TreeNode) :
    ∀ x ∈ nodesList (addTopContributorList l), x.type = "blob" →
      x.topContributor = some (scanTop (x.authors.getD [])) := by
  match l with
  | [] => intro x hx; simp [nodesList, addTopContributorList] at hx
  | n :: ns =>
    intro x hx hb
    rw [addTopContributorList, nodesList] at hx
    rcases List.mem_append.mp hx with hx | hx
    · exact topContributor_set_nodes n x hx hb
    · exact topContributor_set_nodesList ns x hx hb

end

/-- From equal images under `f`, membership on the left transfers to a
member of the right with the same image. -/
theorem exists_mem_of_map_eq {α γ : Type} {f : α → γ} {l₁ l₂ : List α}
    (h : l₁.map f = l₂.map f) {x : α} (hx : x ∈ l₁) :
    ∃ y ∈ l₂, f y = f x := by
  have hmem : f x ∈ l₂.map f := by
    rw [← h]
    exact List.mem_map_of_mem f hx
  rcases List.mem_map.mp hmem with ⟨y, hy, he⟩
  exact ⟨y, hy, he⟩

mutual

/-- After `addSingleAuthor`, every blob node of the result carries
`singleAuthor = (length of its authors record == 1)`. -/
theorem singleAuthor_set_nodes (t : TreeNode) :
    ∀ x ∈ nodes (addSingleAuthor t), x.type = "blob" →
      x.singleAuthor = some (decide ((x.authors.getD []).length = 1)) := by
  match t with
  | .mk ty au ch ep epf cm sa tc =>
    intro x hx hb
    rw [addSingleAuthor, nodes] at hx
    rcases List.mem_cons.mp hx with rfl | hx
    · have hty : ty = "blob" := hb
      subst hty
      simp [TreeNode.singleAuthor, TreeNode.authors]
    · exact singleAuthor_set_nodesChildren ch x hx hb

theorem singleAuthor_set_nodesChildren (ch : Option (List TreeNode)) :
    ∀ x ∈ nodesChildren (addSingleAuthorChildren ch), x.type = "blob" →
      x.singleAuthor = some (decide ((x.authors.getD []).length = 1)) := by
  match ch with
  | none => intro x hx; simp [nodesChildren, addSingleAuthorChildren] at hx
  | some l =>
    intro x hx hb
    rw [addSingleAuthorChildren, nodesChildren] at hx
    exact singleAuthor_set_nodesList l x hx hb

theorem singleAuthor_set_nodesList (l : List TreeNode) :
    ∀ x ∈ nodesList (addSingleAuthorList l), x.type = "blob" →
      x.singleAuthor = some (decide ((x.authors.getD []).length = 1)) := by
  match l with
  | [] => intro x hx; simp [nodesList, addSingleAuthorList] at hx
  | n :: ns =>
    intro x hx hb
    rw [addSingleAuthorList, nodesList] at hx
    rcases List.mem_append.mp hx with hx | hx
    · rcases exists_mem_of_map_eq
          (map_proj_nodes_addTopContributor (addSingleAuthor n)) hx with ⟨y, hy, hproj⟩
      have hty : y.type = x.type := congrArg (fun p => p.1) hproj
      have hau : y.authors = x.authors := congrArg (fun p => p.2.1) hproj
      have hsa : y.singleAuthor = x.singleAuthor := congrArg (fun p => p.2.2) hproj
      have hprop := singleAuthor_set_nodes n y hy (hty.trans hb)
      rw [hsa, hau] at hprop
      exact hprop
    · exact singleAuthor_set_nodesList ns x hx hb

end

/-! ## Claim C4 -/

/-- C4: after the metrics pass (`addMetrics`), every blob node's
`singleAuthor` flag is `true` iff its `authors` record has exactly one key,
and `false` otherwise — including when the record is empty or absent
(absence reads as the empty record `authors.getD []`). -/
theorem c4_singleAuthor_iff_one_author (t : TreeNode) (x : TreeNode)
    (hx : x ∈ nodes (addMetrics t)) (hb : x.type = "blob") :
    x.singleAuthor = some (decide ((x.authors.getD []).length = 1)) := by
  rw [addMetrics] at hx
  rcases exists_mem_of_map_eq
      (map_proj_nodes_addTopContributor (addSingleAuthor t)) hx with ⟨y, hy, hproj⟩
  have hty : y.type = x.type := congrArg (fun p => p.1) hproj
  have hau : y.authors = x.authors := congrArg (fun p => p.2.1) hproj
  have hsa : y.singleAuthor = x.singleAuthor := congrArg (fun p => p.2.2) hproj
  have hprop := singleAuthor_set_nodes t y hy (hty.trans hb)
  rw [hsa, hau] at hprop
  exact hprop

/-- Concrete tree used to witness C4: a root directory with a two-author
blob and a one-author blob. -/
def c4WitnessTree : TreeNode :=
  .mk "tree" none
    (some [.mk "blob" (some [("A", 60), ("B", 40)]) none none none none none none,
           .mk "blob" (some [("C", 100)]) none none none none none none])
    none none none none none

theorem c4_witness :
    ∃ h : 1 < (nodes (addMetrics c4WitnessTree)).length,
      ((nodes (addMetrics c4WitnessTree)).get ⟨1, h⟩).type = "blob"
      ∧ ((nodes (addMetrics c4WitnessTree)).get ⟨1, h⟩).singleAuthor
          = some (decide (((((nodes (addMetrics c4WitnessTree)).get ⟨1, h⟩).authors).getD
              []).length = 1)) := by
  refine ⟨by decide, rfl, ?_⟩
  exact c4_singleAuthor_iff_one_author c4WitnessTree
    ((nodes (addMetrics c4WitnessTree)).get ⟨1, by decide⟩)
    (List.get_mem _ _ _) rfl

/-! ## Characterization of the addTopContributor scan -/

/-- The running maximum of the contributions of `l` on top of `m`. -/
def runningMax (l : List (String × ℚ)) (m : ℚ) : ℚ :=
  l.foldl (fun a e => max a e.2) m

theorem le_runningMax_self (l : List (String × ℚ)) (m : ℚ) :
    m ≤ runningMax l m := by
  induction l generalizing m with
  | nil => exact le_refl m
  | cons e es ih =>
    calc m ≤ max m e.2 := le_max_left m e.2
      _ ≤ runningMax es (max m e.2) := ih (max m e.2)
      _ = runningMax (e :: es) m := rfl

theorem le_runningMax_of_mem {l : List (String × ℚ)} {e : String × ℚ}
    (he : e ∈ l) (m : ℚ) : e.2 ≤ runningMax l m := by
  induction l generalizing m with
  | nil => cases he
  | cons f fs ih =>
    rcases List.mem_cons.mp he with rfl | he'
    · calc e.2 ≤ max m e.2 := le_max_right m e.2
        _ ≤ runningMax fs (max m e.2) := le_runningMax_self fs (max m e.2)
        _ = runningMax (e :: fs) m := rfl
    · exact ih he' (max m f.2)

theorem runningMax_attained (l : List (String × ℚ)) (m : ℚ) :
    runningMax l m = m ∨ ∃ e ∈ l, runningMax l m = e.2 := by
  induction l generalizing m with
  | nil => exact Or.inl rfl
  | cons e es ih =>
    have hstep : runningMax (e :: es) m = runningMax es (max m e.2) := rfl
    rcases ih (max m e.2) with h | ⟨f, hf, hfe⟩
    · rcases max_choice m e.2 with hm | hm
      · exact Or.inl (by rw [hstep, h, hm])
      · exact Or.inr ⟨e, List.mem_cons_self e es, by rw [hstep, h, hm]⟩
    · exact Or.inr ⟨f, List.mem_cons_of_mem e hf, by rw [hstep, hfe]⟩

theorem scanTop_foldl_const (l : List (String × ℚ)) (m : ℚ) (t0 : String)
    (h : ∀ e ∈ l, e.2 ≤ m) : l.foldl scanTopStep (m, t0) = (m, t0) := by
  induction l with
  | nil => rfl
  | cons e es ih =>
    have hstep : scanTopStep (m, t0) e = (m, t0) := by
      have : ¬ m < e.2 := not_lt.mpr (h e (List.mem_cons_self e es))
      simp [scanTopStep, this]
    rw [List.foldl_cons, hstep]
    exact ih (fun f hf => h f (List.mem_cons_of_mem e hf))

theorem runningMax_const (l : List (String × ℚ)) (m : ℚ)
    (h : ∀ e ∈ l, e.2 ≤ m) : runningMax l m = m := by
  induction l with
  | nil => rfl
  | cons e es ih =>
    have : max m e.2 = m := max_eq_left (h e (List.mem_cons_self e es))
    show runningMax es (max m e.2) = m
    rw [this]
    exact ih (fun f hf => h f (List.mem_cons_of_mem e hf))

/-- Exact description of the `addTopContributor` scan when some contribution
beats the initial maximum: the result is the running maximum paired with the
key of the first entry attaining it. -/
theorem scanTop_foldl_spec (l : List (String × ℚ)) (m : ℚ) (t0 : String)
    (h : ∃ e ∈ l, m < e.2) :
    l.foldl scanTopStep (m, t0)
      = (runningMax l m,
        ((l.find? (fun e => runningMax l m ≤ e.2)).map Prod.fst).getD t0) := by
  induction l generalizing m t0 with
  | nil => rcases h with ⟨e, he, _⟩; cases he
  | cons e es ih =>
    by_cases hme : m < e.2
    · have hstep : scanTopStep (m, t0) e = (e.2, e.1) := by simp [scanTopStep, hme]
      have hmax : runningMax (e :: es) m = runningMax es e.2 := by
        show runningMax es (max m e.2) = runningMax es e.2
        rw [max_eq_right (le_of_lt hme)]
      by_cases hall : ∀ f ∈ es, f.2 ≤ e.2
      · have h1 : es.foldl scanTopStep (e.2, e.1) = (e.2, e.1) :=
          scanTop_foldl_const es e.2 e.1 hall
        have h2 : runningMax es e.2 = e.2 := runningMax_const es e.2 hall
        have hfind : (e :: es).find? (fun f => runningMax (e :: es) m ≤ f.2)
            = some e := by
          rw [List.find?_cons_of_pos]
          simp [hmax, h2]
        rw [List.foldl_cons, hstep, h1, hfind, hmax, h2]
        rfl
      · push_neg at hall
        rcases hall with ⟨f, hf, hef⟩
        have hex : ∃ g ∈ es, e.2 < g.2 := ⟨f, hf, hef⟩
        have ihs := ih e.2 e.1 hex
        have hlt : e.2 < runningMax es e.2 :=
          lt_of_lt_of_le hef (le_runningMax_of_mem hf e.2)
        have hfind : (e :: es).find? (fun f => runningMax (e :: es) m ≤ f.2)
            = es.find? (fun f => runningMax es e.2 ≤ f.2) := by
          rw [List.find?_cons_of_neg]
          · rw [hmax]
          · simp [hmax, not_le, hlt]
        have hsome : (es.find? (fun f => runningMax es e.2 ≤ f.2)).isSome := by
          rcases runningMax_attained es e.2 with hat | ⟨g, hg, hge⟩
          · exact absurd hat (ne_of_gt hlt)
          · exact List.find?_isSome.mpr ⟨g, hg, by simp [hge]⟩
        rcases Option.isSome_iff_exists.mp hsome with ⟨u, hu⟩
        rw [List.foldl_cons, hstep, ihs, hfind, hmax, hu]
        rfl
    · have hstep : scanTopStep (m, t0) e = (m, t0) := by simp [scanTopStep, hme]
      have hmax : runningMax (e :: es) m = runningMax es m := by
        show runningMax es (max m e.2) = runningMax es m
        rw [max_eq_left (not_lt.mp hme)]
      have hex : ∃ f ∈ es, m < f.2 := by
        rcases h with ⟨f, hf, hmf⟩
        rcases List.mem_cons.mp hf with rfl | hf'
        · exact absurd hmf hme
        · exact ⟨f, hf', hmf⟩
      have ihs := ih m t0 hex
      have hfind : (e :: es).find? (fun f => runningMax (e :: es) m ≤ f.2)
          = es.find? (fun f => runningMax es m ≤ f.2) := by
        rcases hex with ⟨f, hf, hmf⟩
        have hlt : e.2 < runningMax es m :=
          lt_of_le_of_lt (not_lt.mp hme)
            (lt_of_lt_of_le hmf (le_runningMax_of_mem hf m))
        rw [List.find?_cons_of_neg]
        · rw [hmax]
        · simp [hmax, not_le, hlt]
      rw [List.foldl_cons, hstep, ihs, hfind, hmax]

/-! ## Claim C3 -/

/-- Stated from the claim: the maximum percentage occurring in an `authors`
record (`0` for the empty record, which the claim never consults). -/
def maxContribution : List (String × ℚ) → ℚ
  | [] => 0
  | e :: es => runningMax es e.2

/-- Stated from the claim: the first author attaining the maximum
percentage, or the empty string for an empty record. -/
def specTopContributor (l : List (String × ℚ)) : String :=
  match l with
  | [] => ""
  | _ :: _ => ((l.find? (fun e => maxContribution l ≤ e.2)).map Prod.fst).getD ""

/-- On a non-empty record of non-negative contributions, the
`addTopContributor` scan returns exactly the first author attaining the
maximum percentage — in particular a key of the record. -/
theorem scanTop_spec (l : List (String × ℚ)) (hne : l ≠ [])
    (hnn : ∀ e ∈ l, 0 ≤ e.2) :
    scanTop l = specTopContributor l ∧ scanTop l ∈ l.map Prod.fst := by
  match l, hne with
  | e :: es, _ =>
    have h0 : (0 : ℚ) ≤ e.2 := hnn e (List.mem_cons_self e es)
    have hex : ∃ f ∈ e :: es, (-1 : ℚ) < f.2 :=
      ⟨e, List.mem_cons_self e es, lt_of_lt_of_le (by norm_num) h0⟩
    have hrm : runningMax (e :: es) (-1) = maxContribution (e :: es) := by
      show runningMax es (max (-1) e.2) = runningMax es e.2
      rw [max_eq_right (le_trans (by norm_num) h0)]
    have hspec := scanTop_foldl_spec (e :: es) (-1) "" hex
    have hsome : ((e :: es).find? (fun f => runningMax (e :: es) (-1) ≤ f.2)).isSome := by
      rcases runningMax_attained (e :: es) (-1) with hat | ⟨g, hg, hge⟩
      · exfalso
        have hle : e.2 ≤ runningMax (e :: es) (-1) :=
          le_runningMax_of_mem (List.mem_cons_self e es) (-1)
        rw [hat] at hle
        linarith
      · exact List.find?_isSome.mpr ⟨g, hg, by simp [hge]⟩
    rcases Option.isSome_iff_exists.mp hsome with ⟨u, hu⟩
    have hmem : u ∈ e :: es := List.mem_of_find?_eq_some hu
    have hkey : scanTop (e :: es)
        = (((e :: es).find? (fun f => runningMax (e :: es) (-1) ≤ f.2)).map
            Prod.fst).getD "" := by
      show (List.foldl scanTopStep (-1, "") (e :: es)).2 = _
      rw [hspec]
    constructor
    · rw [hkey, hrm]
      rfl
    · rw [hkey, hu]
      exact List.mem_map_of_mem Prod.fst hmem

/-- C3: after `addTopContributor`, every blob's `topContributor` is the
result of the running-max scan (strict `>` update) over its `authors` record
in iteration order; it is the empty string when the record is empty or
absent, and for non-empty records of non-negative percentages it is a key of
the record — the first author attaining the maximum. -/
theorem c3_topContributor_spec (t : TreeNode) (x : TreeNode)
    (hx : x ∈ nodes (addTopContributor t)) (hb : x.type = "blob")
    (hnn : ∀ e ∈ x.authors.getD [], 0 ≤ e.2) :
    x.topContributor = some (scanTop (x.authors.getD []))
      ∧ (x.authors.getD [] = [] → x.topContributor = some "")
      ∧ (x.authors.getD [] ≠ [] →
          scanTop (x.authors.getD []) ∈ (x.authors.getD []).map Prod.fst
          ∧ scanTop (x.authors.getD []) = specTopContributor (x.authors.getD [])) := by
  have h1 := topContributor_set_nodes t x hx hb
  refine ⟨h1, ?_, ?_⟩
  · intro he
    rw [h1, he]
    rfl
  · intro hne
    have hs := scanTop_spec (x.authors.getD []) hne hnn
    exact ⟨hs.2, hs.1⟩

/-- Concrete tree used to witness C3: one blob with an unsorted `authors`
record `{B: 25, A: 75}`, so the scan has to find the maximum in the middle
of the record. -/
def c3WitnessTree : TreeNode :=
  .mk "tree" none
    (some [.mk "blob" (some [("B", 25), ("A", 75)]) none none none none none none])
    none none none none none

theorem c3_witness :
    ∃ h : 1 < (nodes (addTopContributor c3WitnessTree)).length,
      ((nodes (addTopContributor c3WitnessTree)).get ⟨1, h⟩).type = "blob"
      ∧ (∀ e ∈ (((nodes (addTopContributor c3WitnessTree)).get ⟨1, h⟩).authors).getD [],
          0 ≤ e.2)
      ∧ (((nodes (addTopContributor c3WitnessTree)).get ⟨1, h⟩).topContributor
          = some (scanTop ((((nodes (addTopContributor c3WitnessTree)).get
              ⟨1, h⟩).authors).getD []))
        ∧ ((((nodes (addTopContributor c3WitnessTree)).get ⟨1, h⟩).authors).getD [] = []
            → (((nodes (addTopContributor c3WitnessTree)).get ⟨1, h⟩).topContributor
              = some ""))
        ∧ ((((nodes (addTopContributor c3WitnessTree)).get ⟨1, h⟩).authors).getD [] ≠ []
            → scanTop ((((nodes (addTopContributor c3WitnessTree)).get
                  ⟨1, h⟩).authors).getD [])
                ∈ (((((nodes (addTopContributor c3WitnessTree)).get
                  ⟨1, h⟩).authors).getD []).map Prod.fst)
              ∧ scanTop ((((nodes (addTopContributor c3WitnessTree)).get
                  ⟨1, h⟩).authors).getD [])
                = specTopContributor ((((nodes (addTopContributor c3WitnessTree)).get
                  ⟨1, h⟩).authors).getD []))) := by
  refine ⟨by decide, rfl, ?_, ?_⟩
  · show ∀ e ∈ [("B", (25 : ℚ)), ("A", 75)], 0 ≤ e.2
    norm_num
  · exact c3_topContributor_spec c3WitnessTree
      ((nodes (addTopContributor c3WitnessTree)).get ⟨1, by decide⟩)
      (List.get_mem _ _ _) rfl
      (by show ∀ e ∈ [("B", (25 : ℚ)), ("A", 75)], 0 ≤ e.2; norm_num)

/-! ## Claim C10 -/

theorem addSingleAuthorList_eq_map (l : List TreeNode) :
    addSingleAuthorList l = l.map (fun n => addTopContributor (addSingleAuthor n)) := by
  induction l with
  | nil => rfl
  | cons n ns ih => rw [addSingleAuthorList, ih, List.map_cons]

/-- C10: calling the exported `addSingleAuthor` alone on a tree also sets
`topContributor` on every blob in every child subtree (its recursion goes
through `addMetrics`, which runs both annotations); the root's own
`topContributor` is left untouched, while a blob root still receives its
`singleAuthor` flag — so the two annotation passes are not independent
per-field traversals. -/
theorem c10_addSingleAuthor_frame (t : TreeNode) :
    (∀ c ∈ ((addSingleAuthor t).children).getD [], ∀ x ∈ nodes c,
        x.type = "blob" → (x.topContributor).isSome)
      ∧ (addSingleAuthor t).topContributor = t.topContributor
      ∧ (t.type = "blob" → (addSingleAuthor t).singleAuthor
          = some (decide (((t.authors).getD []).length = 1))) := by
  match t with
  | .mk ty au ch ep epf cm sa tc =>
    refine ⟨?_, rfl, ?_⟩
    · intro c hc x hx hb
      match ch with
      | none =>
        simp [addSingleAuthor, addSingleAuthorChildren, TreeNode.children] at hc
      | some l =>
        have hc' : c ∈ addSingleAuthorList l := by
          simpa [addSingleAuthor, addSingleAuthorChildren, TreeNode.children] using hc
        have hc'' : c ∈ l.map (fun n => addTopContributor (addSingleAuthor n)) :=
          addSingleAuthorList_eq_map l ▸ hc'
        rcases List.mem_map.mp hc'' with ⟨n, hn, rfl⟩
        rw [topContributor_set_nodes (addSingleAuthor n) x hx hb]
        rfl
    · intro hbt
      have hty : ty = "blob" := hbt
      subst hty
      simp [addSingleAuthor, TreeNode.singleAuthor, TreeNode.authors]

/-- Concrete single-author blob used to witness C10. -/
def c10Blob : TreeNode :=
  .mk "blob" (some [("A", 100)]) none none none none none none

/-- Concrete tree used to witness C10. -/
def c10Tree : TreeNode :=
  .mk "tree" none (some [c10Blob]) none none none none none

theorem c10_witness :
    (addTopContributor (addSingleAuthor c10Blob)
        ∈ ((addSingleAuthor c10Tree).children).getD [])
      ∧ (addTopContributor (addSingleAuthor c10Blob)
          ∈ nodes (addTopContributor (addSingleAuthor c10Blob)))
      ∧ (addTopContributor (addSingleAuthor c10Blob)).type = "blob"
      ∧ ((addTopContributor (addSingleAuthor c10Blob)).topContributor).isSome
      ∧ (addSingleAuthor c10Tree).topContributor = c10Tree.topContributor :=
  ⟨List.mem_cons_self _ _, List.mem_cons_self _ _, rfl,
    (c10_addSingleAuthor_frame c10Tree).1
      (addTopContributor (addSingleAuthor c10Blob)) (List.mem_cons_self _ _)
      (addTopContributor (addSingleAuthor c10Blob)) (List.mem_cons_self _ _) rfl,
    (c10_addSingleAuthor_frame c10Tree).2.1⟩

/-! ## Claim C6 — the IEEE-754 edge case of normalization

`ℚ` has no `NaN`/`Infinity`, so the one float edge case `updateAuthorValues`
can reach — dividing by a zero `totalSum` — is modelled by the explicit
JS-number type `JsNum` with the exact IEEE-754 special-value rules the
computation `Math.round(weight / total * 100)` uses: `0/0 = NaN`,
`±x/0 = ±Infinity`, special values absorb through `* 100` and
`Math.round`. -/
inductive JsNum where
  | nan
  | posInf
  | negInf
  | num (q : ℚ)
deriving DecidableEq

/-- IEEE division of finite JS numbers: for a zero divisor, `0/0 = NaN` and
`±x/0 = ±Infinity`; otherwise exact. -/
def jsDiv (a b : ℚ) : JsNum :=
  if b = 0 then
    if a = 0 then .nan else if 0 < a then .posInf else .negInf
  else .num (a / b)

/-- IEEE multiplication of a JS number by a finite constant. -/
def jsMulConst : JsNum → ℚ → JsNum
  | .nan, _ => .nan
  | .posInf, k => if k = 0 then .nan else if 0 < k then .posInf else .negInf
  | .negInf, k => if k = 0 then .nan else if 0 < k then .negInf else .posInf
  | .num q, k => .num (q * k)

/-- `Math.round` on a JS number: special values pass through. -/
def jsRound : JsNum → JsNum
  | .nan => .nan
  | .posInf => .posInf
  | .negInf => .negInf
  | .num q => .num ((round q : ℤ) : ℚ)

/-- The percentage list of `updateAuthorValues` (its lines computing
`proportion` and `percentage`) evaluated under the IEEE-754 rules above. -/
def jsAuthorPercentages (l : List (String × ℚ)) : List (String × JsNum) :=
  l.map (fun e => (e.1, jsRound (jsMulConst (jsDiv e.2 (totalWeight l)) 100)))

/-- C6: on a non-empty `authors` record of (non-negative) raw weights whose
total is `0`, the unguarded division makes every percentage computed by
`updateAuthorValues` come out `NaN` — no explicit zero-total policy is
applied, and every author is still assigned a (NaN) percentage. -/
theorem c6_zero_total_yields_nan (l : List (String × ℚ)) (hne : l ≠ [])
    (hnn : ∀ e ∈ l, 0 ≤ e.2) (h0 : totalWeight l = 0) :
    (∀ e ∈ jsAuthorPercentages l, e.2 = JsNum.nan)
      ∧ (jsAuthorPercentages l).map Prod.fst = l.map Prod.fst := by
  have hz : ∀ e ∈ l, e.2 = 0 := by
    intro e he
    have h1 : e.2 ≤ totalWeight l := by
      rw [totalWeight_eq_sum]
      refine List.single_le_sum ?_ e.2 (List.mem_map.mpr ⟨e, he, rfl⟩)
      intro x hx
      rcases List.mem_map.mp hx with ⟨y, hy, rfl⟩
      exact hnn y hy
    have h2 := hnn e he
    linarith
  constructor
  · intro p hp
    rcases List.mem_map.mp hp with ⟨e, he, rfl⟩
    have hze : e.2 = 0 := hz e he
    simp [jsDiv, h0, hze, jsMulConst, jsRound]
  · simp [jsAuthorPercentages]

theorem c6_witness :
    (([("A", (0 : ℚ)), ("B", 0)] : List (String × ℚ)) ≠ [])
      ∧ (∀ e ∈ [("A", (0 : ℚ)), ("B", 0)], 0 ≤ e.2)
      ∧ totalWeight [("A", (0 : ℚ)), ("B", 0)] = 0
      ∧ ((∀ e ∈ jsAuthorPercentages [("A", (0 : ℚ)), ("B", 0)], e.2 = JsNum.nan)
        ∧ (jsAuthorPercentages [("A", (0 : ℚ)), ("B", 0)]).map Prod.fst
            = ([("A", (0 : ℚ)), ("B", 0)]).map Prod.fst) :=
  ⟨by decide, by norm_num, by norm_num [totalWeight],
    c6_zero_total_yields_nan [("A", (0 : ℚ)), ("B", 0)] (by decide) (by norm_num)
      (by norm_num [totalWeight])⟩

/-! ## Claim C8 -/

/-- Reading an author's accumulated total: `authorComplexity[author]`,
`0` when absent. -/
def lookupCredit (m : List (String × Nat)) (a : String) : Nat :=
  (List.lookup a m).getD 0

theorem lookup_cons_pair {β : Type} (x : String) (e : String × β)
    (es : List (String × β)) :
    List.lookup x (e :: es) = if x = e.1 then some e.2 else List.lookup x es := by
  obtain ⟨k, v⟩ := e
  by_cases h : x = k
  · rw [if_pos h]
    subst h
    rw [List.lookup, beq_self_eq_true]
  · rw [if_neg h, List.lookup, beq_eq_false_iff_ne.mpr h]

theorem lookupCredit_bumpAuthor (m : List (String × Nat)) (a x : String) (c : Nat) :
    lookupCredit (bumpAuthor m a c) x
      = lookupCredit m x + (if x = a then c else 0) := by
  induction m with
  | nil =>
    by_cases h : x = a <;>
      simp [bumpAuthor, lookupCredit, lookup_cons_pair, h]
  | cons e es ih =>
    by_cases hea : e.1 = a
    · by_cases hx : x = e.1
      · have hxa : x = a := hx.trans hea
        simp [bumpAuthor, hea, lookupCredit, lookup_cons_pair, hx, hxa]
      · have hxa : ¬ x = a := fun h' => hx (h'.trans hea.symm)
        simp [bumpAuthor, hea, lookupCredit, lookup_cons_pair, hx, hxa]
    · by_cases hx : x = e.1
      · have hxa : ¬ x = a := fun h' => hea (hx.symm.trans h')
        simp [bumpAuthor, hea, lookupCredit, lookup_cons_pair, hx, hxa]
      · simpa [bumpAuthor, hea, lookupCredit, lookup_cons_pair, hx] using ih

theorem lookupCredit_creditAuthors (l : List (String × ℚ))
    (m : List (String × Nat)) (x : String) (c : Nat) :
    lookupCredit (creditAuthors m l c) x
      = lookupCredit m x + c * (l.countP (fun e => e.1 = x)) := by
  induction l generalizing m with
  | nil => simp [creditAuthors, List.countP_nil]
  | cons e es ih =>
    have hstep : creditAuthors m (e :: es) c
        = creditAuthors (bumpAuthor m e.1 c) es c := rfl
    rw [hstep, ih, lookupCredit_bumpAuthor]
    by_cases h : x = e.1
    · simp [List.countP_cons, h, Nat.mul_add]
      omega
    · have h' : ¬ e.1 = x := fun he => h he.symm
      simp [List.countP_cons, h, h']

/-- Stated from the claim: the credit an author receives from one node — the
number of blob descendants under that node (`calculateComplexity`) when the
author appears in the node's `authors` record (counted once per occurrence),
`0` otherwise. -/
def nodeCredit (a : String) (n : TreeNode) : Nat :=
  calculateComplexity n * ((n.authors.getD []).countP (fun e => e.1 = a))

/-- Stated from the claim: an author's total complexity — the sum of the
per-node credits over every node (tree or blob) of the tree. -/
def specAuthorComplexity (a : String) (t : TreeNode) : Nat :=
  ((nodes t).map (nodeCredit a)).sum

mutual

theorem lookupCredit_traverseTree (n : TreeNode) :
    ∀ (m : List (String × Nat)) (x : String),
      lookupCredit (traverseTree m n) x
        = lookupCredit m x + ((nodes n).map (nodeCredit x)).sum := by
  match n with
  | .mk ty au ch ep epf cm sa tc =>
    intro m x
    cases ch with
    | none =>
      cases au with
      | none =>
        simp [traverseTree, nodes, nodesChildren, nodeCredit, TreeNode.authors,
          List.countP_nil]
      | some l =>
        rw [show traverseTree m (.mk ty (some l) none ep epf cm sa tc)
            = creditAuthors m l
                (calculateComplexity (.mk ty (some l) none ep epf cm sa tc)) from rfl]
        rw [lookupCredit_creditAuthors]
        simp [nodes, nodesChildren, nodeCredit, TreeNode.authors]
    | some cs =>
      cases au with
      | none =>
        rw [show traverseTree m (.mk ty none (some cs) ep epf cm sa tc)
            = traverseTreeList m cs from rfl]
        rw [lookupCredit_traverseTreeList cs m x]
        simp [nodes, nodesChildren, nodeCredit, TreeNode.authors, List.countP_nil]
      | some l =>
        rw [show traverseTree m (.mk ty (some l) (some cs) ep epf cm sa tc)
            = traverseTreeList (creditAuthors m l
                (calculateComplexity (.mk ty (some l) (some cs) ep epf cm sa tc)))
                cs from rfl]
        rw [lookupCredit_traverseTreeList cs _ x, lookupCredit_creditAuthors]
        simp [nodes, nodesChildren, nodeCredit, TreeNode.authors]
        ring

theorem lookupCredit_traverseTreeList (l : List TreeNode) :
    ∀ (m : List (String × Nat)) (x : String),
      lookupCredit (traverseTreeList m l) x
        = lookupCredit m x + ((nodesList l).map (nodeCredit x)).sum := by
  match l with
  | [] =>
    intro m x
    simp [traverseTreeList, nodesList]
  | c :: cs =>
    intro m x
    rw [traverseTreeList, lookupCredit_traverseTreeList cs _ x,
      lookupCredit_traverseTree c m x]
    simp [nodesList]
    omega

end

/-- Concrete single-blob, single-author tree for the second part of C8. -/
def c8SingleBlob : TreeNode :=
  .mk "blob" (some [("A", 7)]) none none none none none none

/-- C8: `calculateComplexityMetric` credits every author, for every node
(tree or blob) whose `authors` record lists the author, with the number of
blob descendants under that node (a blob crediting itself `1`), summed over
all such nodes — so ancestor-level and blob-level listings both count; and
on a single-blob, single-author tree the author's total is `1`. -/
theorem c8_complexity_spec :
    (∀ (t : TreeNode) (a : String),
        lookupCredit (calculateComplexityMetric t) a = specAuthorComplexity a t)
      ∧ lookupCredit (calculateComplexityMetric c8SingleBlob) "A" = 1 := by
  have hmain : ∀ (t : TreeNode) (a : String),
      lookupCredit (calculateComplexityMetric t) a = specAuthorComplexity a t := by
    intro t a
    rw [calculateComplexityMetric, lookupCredit_traverseTree t [] a]
    simp [lookupCredit, specAuthorComplexity, List.lookup]
  refine ⟨hmain, ?_⟩
  rw [hmain c8SingleBlob "A"]
  simp [specAuthorComplexity, c8SingleBlob, nodes, nodesChildren, nodeCredit,
    calculateComplexity, TreeNode.authors, List.countP, List.countP.go]

/-! ## Claim C7 — the four aggregate reductions

`getMaxCommits`/`getLastChangeEpoch` are compared against the plain maximum
of the readings of all nodes; `getMinCommits`/`getFirstChangeEpoch` against
their minimum, computed with the `Infinity`-free minimum `specMinO` below. -/

/-- Minimum of two optional values, `none` acting as `+Infinity`. -/
def omin : Option Nat → Option Nat → Option Nat
  | none, b => b
  | some x, none => some x
  | some x, some y => some (min x y)

/-- Stated from the claim: the minimum of a list of readings, `none` for the
empty list. -/
def specMinO (l : List Nat) : Option Nat :=
  l.foldr (fun v o => omin (some v) o) none

theorem omin_none_right (a : Option Nat) : omin a none = a := by
  cases a <;> rfl

theorem omin_assoc (a b c : Option Nat) :
    omin (omin a b) c = omin a (omin b c) := by
  cases a <;> cases b <;> cases c <;> simp [omin, min_assoc]

theorem specMinO_append (a b : List Nat) :
    specMinO (a ++ b) = omin (specMinO a) (specMinO b) := by
  induction a with
  | nil => rfl
  | cons x xs ih =>
    show omin (some x) (specMinO (xs ++ b)) = omin (omin (some x) (specMinO xs)) (specMinO b)
    rw [ih, omin_assoc]

/-- `specMinO` of a non-empty list is a member that bounds every member from
below — the minimum of the list. -/
theorem specMinO_spec (l : List Nat) (h : l ≠ []) :
    ∃ v, specMinO l = some v ∧ v ∈ l ∧ ∀ w ∈ l, v ≤ w := by
  induction l with
  | nil => exact absurd rfl h
  | cons x xs ih =>
    cases xs with
    | nil =>
      refine ⟨x, rfl, List.mem_singleton_self x, ?_⟩
      intro w hw
      exact (List.mem_singleton.mp hw).ge
    | cons y ys =>
      rcases ih (by simp) with ⟨v, hv, hvm, hvle⟩
      refine ⟨min x v, ?_, ?_, ?_⟩
      · show omin (some x) (specMinO (y :: ys)) = some (min x v)
        rw [hv]
        rfl
      · rcases min_choice x v with h' | h'
        · rw [h']
          exact List.mem_cons_self x (y :: ys)
        · rw [h']
          exact List.mem_cons_of_mem x hvm
      · intro w hw
        rcases List.mem_cons.mp hw with he | hw'
        · rw [he]
          exact min_le_left x v
        · exact le_trans (min_le_right x v) (hvle w hw')

theorem foldr_max_append (a b : List Nat) :
    (a ++ b).foldr max 0 = max (a.foldr max 0) (b.foldr max 0) := by
  induction a with
  | nil => simp
  | cons x xs ih => simp [List.foldr_cons, ih, max_assoc]

mutual

/-- `maxAgg` computes the maximum of the readings of all nodes (with `0` for
no readings) — the `0` start is absorbed by `max` over `ℕ`. -/
theorem maxAgg_eq (f : TreeNode → Option Nat) (t : TreeNode) :
    maxAgg f t = ((nodes t).filterMap f).foldr max 0 := by
  match t with
  | .mk ty au ch ep epf cm sa tc =>
    cases ch with
    | none =>
      cases hf : f (.mk ty au none ep epf cm sa tc) <;>
        simp [maxAgg, nodes, nodesChildren, hf]
    | some cs =>
      rw [show maxAgg f (.mk ty au (some cs) ep epf cm sa tc)
          = maxAggFold f ((f (.mk ty au (some cs) ep epf cm sa tc)).getD 0) cs from rfl]
      rw [maxAggFold_eq f cs ((f (.mk ty au (some cs) ep epf cm sa tc)).getD 0)]
      cases hf : f (.mk ty au (some cs) ep epf cm sa tc) <;>
        simp [nodes, nodesChildren, hf]

theorem maxAggFold_eq (f : TreeNode → Option Nat) (l : List TreeNode) :
    ∀ v : Nat, maxAggFold f v l
      = max v (((nodesList l).filterMap f).foldr max 0) := by
  match l with
  | [] =>
    intro v
    simp [maxAggFold, nodesList]
  | c :: cs =>
    intro v
    rw [maxAggFold, maxAggFold_eq f cs (max v (maxAgg f c)), maxAgg_eq f c]
    rw [show nodesList (c :: cs) = nodes c ++ nodesList cs from rfl]
    rw [List.filterMap_append, foldr_max_append]
    simp [max_assoc]

end

mutual

/-- Under the condition that every childless node has a reading, `minAgg`
computes the minimum of the readings of all nodes — and there is at least
one reading. -/
theorem minAgg_eq (f : TreeNode → Option Nat) (t : TreeNode) :
    (∀ x ∈ nodes t, ((x.children).getD []).length = 0 → (f x).isSome) →
      minAgg f t = (specMinO ((nodes t).filterMap f)).getD 0
        ∧ (nodes t).filterMap f ≠ [] := by
  match t with
  | .mk ty au ch ep epf cm sa tc =>
    intro hcond
    cases ch with
    | none =>
      have hself := hcond (.mk ty au none ep epf cm sa tc)
        (List.mem_cons_self _ _) (by simp [TreeNode.children])
      rcases Option.isSome_iff_exists.mp hself with ⟨v, hv⟩
      constructor
      · simp [minAgg, nodes, nodesChildren, hv, specMinO, omin]
      · simp [nodes, nodesChildren, hv]
    | some cs =>
      match cs with
      | [] =>
        have hself := hcond (.mk ty au (some []) ep epf cm sa tc)
          (List.mem_cons_self _ _) (by simp [TreeNode.children])
        rcases Option.isSome_iff_exists.mp hself with ⟨v, hv⟩
        constructor
        · simp [minAgg, minAggFold, nodes, nodesChildren, nodesList, hv,
            specMinO, omin]
        · simp [nodes, nodesChildren, nodesList, hv]
      | c :: cs' =>
        have hcondL : ∀ x ∈ nodesList (c :: cs'),
            ((x.children).getD []).length = 0 → (f x).isSome := by
          intro x hx
          exact hcond x (List.mem_cons_of_mem _ (by simpa [nodesChildren] using hx))
        have hne : (nodesList (c :: cs')).filterMap f ≠ [] := by
          have hcondc : ∀ x ∈ nodes c,
              ((x.children).getD []).length = 0 → (f x).isSome := by
            intro x hx
            exact hcondL x (by simp [nodesList, List.mem_append, hx])
          rcases minAgg_eq f c hcondc with ⟨_, hnec⟩
          intro hemp
          apply hnec
          have : (nodes c).filterMap f ++ (nodesList cs').filterMap f = [] := by
            rw [← List.filterMap_append]
            simpa [nodesList] using hemp
          exact List.append_eq_nil.mp this |>.1
        have hfold := minAggFold_eq f (c :: cs') hcondL
          (f (.mk ty au (some (c :: cs')) ep epf cm sa tc))
        rcases specMinO_spec _ hne with ⟨w, hw, _, _⟩
        constructor
        · rw [show minAgg f (.mk ty au (some (c :: cs')) ep epf cm sa tc)
              = (minAggFold f (f (.mk ty au (some (c :: cs')) ep epf cm sa tc))
                  (c :: cs')).getD 0 from rfl]
          rw [hfold]
          cases hf : f (.mk ty au (some (c :: cs')) ep epf cm sa tc) <;>
            simp [nodes, nodesChildren, hf, specMinO, hw, omin]
        · cases hf : f (.mk ty au (some (c :: cs')) ep epf cm sa tc) <;>
            simp [nodes, nodesChildren, hf] <;>
            simpa using hne

theorem minAggFold_eq (f : TreeNode → Option Nat) (l : List TreeNode) :
    (∀ x ∈ nodesList l, ((x.children).getD []).length = 0 → (f x).isSome) →
      ∀ o : Option Nat, minAggFold f o l
        = omin o (specMinO ((nodesList l).filterMap f)) := by
  match l with
  | [] =>
    intro _ o
    rw [show nodesList [] = [] from rfl]
    simp [minAggFold, specMinO, omin_none_right]
  | c :: cs =>
    intro hcond o
    have hcondc : ∀ x ∈ nodes c,
        ((x.children).getD []).length = 0 → (f x).isSome := by
      intro x hx
      exact hcond x (by simp [nodesList, List.mem_append, hx])
    have hcondcs : ∀ x ∈ nodesList cs,
        ((x.children).getD []).length = 0 → (f x).isSome := by
      intro x hx
      exact hcond x (by simp [nodesList, List.mem_append, hx])
    rcases minAgg_eq f c hcondc with ⟨hceq, hcne⟩
    rcases specMinO_spec _ hcne with ⟨vc, hvc, _, _⟩
    have hstep : minAggFold f o (c :: cs)
        = minAggFold f (omin o (some (minAgg f c))) cs := by
      cases o <;> rfl
    rw [hstep, minAggFold_eq f cs hcondcs (omin o (some (minAgg f c)))]
    have hminc : some (minAgg f c) = specMinO ((nodes c).filterMap f) := by
      rw [hceq, hvc]
      rfl
    rw [hminc]
    rw [show (nodesList (c :: cs)).filterMap f
        = (nodes c).filterMap f ++ (nodesList cs).filterMap f from by
      simp [nodesList, List.filterMap_append]]
    rw [specMinO_append, omin_assoc]

end

/-- Concrete tree refuting the min-commits clause of C7: one blob with one
commit next to one blob without a `commits` field. -/
def c7CexTree : TreeNode :=
  .mk "tree" none
    (some [.mk "blob" none none none none (some (.hashes ["h1"])) none none,
           .mk "blob" none none none none none none none])
    none none none none none

/-- Concrete tree refuting the first-change clause of C7: one blob with
epoch `5` next to one blob without a `lastChangeEpoch`. -/
def c7CexEpochTree : TreeNode :=
  .mk "tree" none
    (some [.mk "blob" none none (some 5) none none none none,
           .mk "blob" none none none none none none none])
    none none none none none

/-- C7 counterexample: on a non-empty tree, `getMinCommits` is NOT the
minimum of `len(commits)` over the blobs carrying a `commits` field — the
commit-less blob's recursive call collapses its `Infinity` to `0`, dragging
the minimum to `0` although the only commit-carrying blob has `1` commit;
`getFirstChangeEpoch` fails in the same way. -/
theorem c7_counterexample :
    getMinCommits c7CexTree = 0
      ∧ (nodes c7CexTree).filterMap localCommitsLength = [1]
      ∧ getFirstChangeEpoch c7CexEpochTree = 0
      ∧ (nodes c7CexEpochTree).filterMap localEpoch = [5] := by
  refine ⟨?_, ?_, ?_, ?_⟩ <;> decide

/-- C7 (amended): on an empty tree (a `tree` node with no or empty
`children`) all four reductions return `0`, not an error; on every tree the
two max reductions are the maximum of `len(commits)` (resp.
`lastChangeEpoch`) over the blobs carrying the field, `0` if none; the two
min reductions are the minimum over the blobs carrying the field provided
every childless node is a blob carrying it — otherwise each childless node
without the field contributes a collapsed `0` to the minimum. -/
theorem c7_aggregates_amended (t : TreeNode) :
    (t.type = "tree" → ((t.children).getD []).length = 0 →
        getMinCommits t = 0 ∧ getMaxCommits t = 0
          ∧ getFirstChangeEpoch t = 0 ∧ getLastChangeEpoch t = 0)
      ∧ getMaxCommits t = ((nodes t).filterMap localCommitsLength).foldr max 0
      ∧ getLastChangeEpoch t = ((nodes t).filterMap localEpoch).foldr max 0
      ∧ ((∀ x ∈ nodes t, ((x.children).getD []).length = 0 →
            (localCommitsLength x).isSome) →
          ∃ v, getMinCommits t = v
            ∧ v ∈ (nodes t).filterMap localCommitsLength
            ∧ ∀ w ∈ (nodes t).filterMap localCommitsLength, v ≤ w)
      ∧ ((∀ x ∈ nodes t, ((x.children).getD []).length = 0 →
            (localEpoch x).isSome) →
          ∃ v, getFirstChangeEpoch t = v
            ∧ v ∈ (nodes t).filterMap localEpoch
            ∧ ∀ w ∈ (nodes t).filterMap localEpoch, v ≤ w) := by
  refine ⟨?_, maxAgg_eq _ t, maxAgg_eq _ t, ?_, ?_⟩
  · intro hty hlen
    match t, hty with
    | .mk ty au ch ep epf cm sa tc, hty =>
      have hty' : ty = "tree" := hty
      subst hty'
      cases ch with
      | none =>
        refine ⟨?_, ?_, ?_, ?_⟩ <;>
          simp [getMinCommits, getMaxCommits, getFirstChangeEpoch,
            getLastChangeEpoch, minAgg, maxAgg, localCommitsLength, localEpoch,
            TreeNode.type]
      | some l =>
        have hl : l = [] := by
          have : l.length = 0 := by simpa [TreeNode.children] using hlen
          exact List.length_eq_zero.mp this
        subst hl
        refine ⟨?_, ?_, ?_, ?_⟩ <;>
          simp [getMinCommits, getMaxCommits, getFirstChangeEpoch,
            getLastChangeEpoch, minAgg, maxAgg, minAggFold, maxAggFold,
            localCommitsLength, localEpoch, TreeNode.type]
  · intro hcond
    rcases minAgg_eq localCommitsLength t hcond with ⟨heq, hne⟩
    rcases specMinO_spec _ hne with ⟨v, hv, hm, hle⟩
    refine ⟨v, ?_, hm, hle⟩
    rw [getMinCommits, heq, hv]
    rfl
  · intro hcond
    rcases minAgg_eq localEpoch t hcond with ⟨heq, hne⟩
    rcases specMinO_spec _ hne with ⟨v, hv, hm, hle⟩
    refine ⟨v, ?_, hm, hle⟩
    rw [getFirstChangeEpoch, heq, hv]
    rfl

/-- Concrete tree used to witness the amended C7: two blobs, both carrying
`commits` and `lastChangeEpoch`. -/
def c7WitnessTree : TreeNode :=
  .mk "tree" none
    (some [.mk "blob" none none (some 7) none (some (.hashes ["h1", "h2"])) none none,
           .mk "blob" none none (some 3) none (some (.hashes ["h3"])) none none])
    none none none none none

theorem c7_amended_witness :
    (∀ x ∈ nodes c7WitnessTree, ((x.children).getD []).length = 0 →
        (localCommitsLength x).isSome)
      ∧ (∀ x ∈ nodes c7WitnessTree, ((x.children).getD []).length = 0 →
          (localEpoch x).isSome)
      ∧ ((c7WitnessTree.type = "tree" → ((c7WitnessTree.children).getD []).length = 0 →
            getMinCommits c7WitnessTree = 0 ∧ getMaxCommits c7WitnessTree = 0
              ∧ getFirstChangeEpoch c7WitnessTree = 0
              ∧ getLastChangeEpoch c7WitnessTree = 0)
        ∧ getMaxCommits c7WitnessTree
            = ((nodes c7WitnessTree).filterMap localCommitsLength).foldr max 0
        ∧ getLastChangeEpoch c7WitnessTree
            = ((nodes c7WitnessTree).filterMap localEpoch).foldr max 0
        ∧ ((∀ x ∈ nodes c7WitnessTree, ((x.children).getD []).length = 0 →
              (localCommitsLength x).isSome) →
            ∃ v, getMinCommits c7WitnessTree = v
              ∧ v ∈ (nodes c7WitnessTree).filterMap localCommitsLength
              ∧ ∀ w ∈ (nodes c7WitnessTree).filterMap localCommitsLength, v ≤ w)
        ∧ ((∀ x ∈ nodes c7WitnessTree, ((x.children).getD []).length = 0 →
              (localEpoch x).isSome) →
            ∃ v, getFirstChangeEpoch c7WitnessTree = v
              ∧ v ∈ (nodes c7WitnessTree).filterMap localEpoch
              ∧ ∀ w ∈ (nodes c7WitnessTree).filterMap localEpoch, v ≤ w)) :=
  ⟨by decide, by decide, c7_aggregates_amended c7WitnessTree⟩
